import Mathlib

/-!
Verification of the positional diff engine of the `iter-diff` crate
(`src/lib.rs`).  The engine pairs two single-pass sequence producers and
classifies each position as `Keep`, `Change`, `Remove` or `Add`.

Producers are embedded as explicit step functions `σ → Option α × σ`
(the Rust `Iterator::next` on a state), so `DiffIter.next` below is a
direct transcription of `impl Iterator for DiffIter { fn next ... }`.
List-backed producers (`listNext`) instantiate the generic machine, and
`diffs` is the list-level run of the engine; `collectN_eq_diffs` links
the two.
-/

namespace IterDiff

/-- The difference between two iterator elements (`enum Diff<T>` in the
source). -/
inductive Diff (T : Type) where
  | Change : T → Diff T
  | Remove : Diff T
  | Keep : Diff T
  | Add : T → Diff T
deriving DecidableEq, Repr

/-- An iterator of the differences between two iterators
(`struct DiffIter<Lhs, Rhs>` in the source): it just holds the two
producer states. -/
structure DiffIter (σL σR : Type) where
  lhs : σL
  rhs : σR
deriving DecidableEq, Repr

/-- One pull step of the engine, transcribing `DiffIter::next`: pull
`lhs`, pull `rhs` (both unconditionally), then classify the pair.
`eqTU` is the heterogeneous equality `T: PartialEq<U>`. -/
def DiffIter.next {T U σL σR : Type} (eqTU : T → U → Bool)
    (nextL : σL → Option T × σL) (nextR : σR → Option U × σR)
    (s : DiffIter σL σR) : Option (Diff U) × DiffIter σL σR :=
  let l := nextL s.lhs
  let r := nextR s.rhs
  (match l.1, r.1 with
    | none, none => none
    | none, some rv => some (Diff.Add rv)
    | some _, none => some Diff.Remove
    | some lv, some rv =>
      match eqTU lv rv with
      | true => some Diff.Keep
      | false => some (Diff.Change rv),
   ⟨l.2, r.2⟩)

/-- The state reached after one pull (second component of
`DiffIter.next`). -/
def advance {T U σL σR : Type} (eqTU : T → U → Bool)
    (nextL : σL → Option T × σL) (nextR : σR → Option U × σR)
    (s : DiffIter σL σR) : DiffIter σL σR :=
  (DiffIter.next eqTU nextL nextR s).2

/-- A list-backed single-pass producer: `next` on a `List` state. -/
def listNext {α : Type} : List α → Option α × List α
  | [] => (none, [])
  | x :: xs => (some x, xs)

/-- Construction of the engine, transcribing `IterDiff::iter_diff`:
convert each operand into a producer (`into_iter`) and store the pair —
nothing is pulled. -/
def iter_diff {CL CR σL σR : Type} (intoL : CL → σL) (intoR : CR → σR)
    (lhs : CL) (rhs : CR) : DiffIter σL σR :=
  ⟨intoL lhs, intoR rhs⟩

/-- Driving the engine by pull, as `collect()` does: up to `fuel` pulls,
stopping at the first end-of-sequence signal. -/
def collectN {T U σL σR : Type} (eqTU : T → U → Bool)
    (nextL : σL → Option T × σL) (nextR : σR → Option U × σR) :
    Nat → DiffIter σL σR → List (Diff U)
  | 0, _ => []
  | fuel + 1, s =>
    match DiffIter.next eqTU nextL nextR s with
    | (none, _) => []
    | (some d, t) => d :: collectN eqTU nextL nextR fuel t

/-- The list-level run of the engine: the edit sequence produced from
two list-backed producers, one edit per step of `DiffIter::next`. -/
def diffs {T U : Type} (eqTU : T → U → Bool) : List T → List U → List (Diff U)
  | [], [] => []
  | [], rv :: rs => Diff.Add rv :: diffs eqTU [] rs
  | _ :: ls, [] => Diff.Remove :: diffs eqTU ls []
  | lv :: ls, rv :: rs =>
    (match eqTU lv rv with
      | true => Diff.Keep
      | false => Diff.Change rv) :: diffs eqTU ls rs

/-- Boolean equality on naturals, used to instantiate the heterogeneous
relation in concrete runs. -/
def beqNat (a b : Nat) : Bool := a == b

example :
    diffs beqNat [0, 1, 2, 3] [0, 2, 2] =
      [Diff.Keep, Diff.Change 2, Diff.Keep, Diff.Remove] := by
  simp [diffs, beqNat]

example :
    diffs beqNat [0, 1, 2] [0, 3, 2, 3] =
      [Diff.Keep, Diff.Change 3, Diff.Keep, Diff.Add 3] := by
  simp [diffs, beqNat]

example :
    collectN beqNat listNext listNext 10 (iter_diff id id [0, 2] [0, 1, 2, 4]) =
      [Diff.Keep, Diff.Change 1, Diff.Add 2, Diff.Add 4] := by decide

/-- Running the machine with enough fuel on list-backed producers
produces exactly `diffs`. -/
theorem collectN_eq_diffs {T U : Type} (eqTU : T → U → Bool) :
    ∀ (fuel : Nat) (a : List T) (b : List U),
      max a.length b.length < fuel →
      collectN eqTU listNext listNext fuel (iter_diff id id a b) = diffs eqTU a b := by
  intro fuel
  induction fuel with
  | zero => intro a b h; exact absurd h (Nat.not_lt_zero _)
  | succ fuel ih =>
    intro a b h
    cases a with
    | nil =>
      cases b with
      | nil => simp [collectN, DiffIter.next, listNext, iter_diff, diffs]
      | cons rv rs =>
        have hr : max ([] : List T).length rs.length < fuel := by
          simp at h ⊢; omega
        simpa [collectN, DiffIter.next, listNext, iter_diff, diffs] using ih [] rs hr
    | cons lv ls =>
      cases b with
      | nil =>
        have hr : max ls.length ([] : List U).length < fuel := by
          simp at h ⊢; omega
        simpa [collectN, DiffIter.next, listNext, iter_diff, diffs] using ih ls [] hr
      | cons rv rs =>
        have hr : max ls.length rs.length < fuel := by
          simp at h ⊢; omega
        cases hq : eqTU lv rv <;>
          simpa [collectN, DiffIter.next, listNext, iter_diff, diffs, hq] using ih ls rs hr

/-- With an empty left producer every step hits the `(None, Some(r))`
arm: the run maps `Diff.Add` over the right list. -/
theorem diffs_nil_left {T U : Type} (eqTU : T → U → Bool) :
    ∀ b : List U, diffs eqTU ([] : List T) b = b.map Diff.Add := by
  intro b
  induction b with
  | nil => simp [diffs]
  | cons rv rs ih => simp [diffs, ih]

/-- With an empty right producer every step hits the `(Some(_), None)`
arm: the run is `Diff.Remove` repeated `len(a)` times. -/
theorem diffs_nil_right {T U : Type} (eqTU : T → U → Bool) :
    ∀ a : List T, diffs eqTU a ([] : List U) = List.replicate a.length Diff.Remove := by
  intro a
  induction a with
  | nil => simp [diffs]
  | cons lv ls ih => simp [diffs, ih, List.replicate_succ]

/-- C2: the produced edit sequence has length exactly
`max (len a) (len b)`: one edit per position up to that bound. -/
theorem diffs_length {T U : Type} (eqTU : T → U → Bool)
    (a : List T) (b : List U) :
    (diffs eqTU a b).length = max a.length b.length := by
  induction a generalizing b with
  | nil => simp [diffs_nil_left]
  | cons lv ls ih =>
    cases b with
    | nil => simp [diffs_nil_right]
    | cons rv rs =>
      cases hq : eqTU lv rv <;> simp [diffs, hq, ih rs] <;> omega

/-- C1: at every overlapping position `i` the engine emits exactly one
edit: `Keep` when the left element equals the right element under the
heterogeneous relation `eqTU`, otherwise `Change` carrying the
right-hand element. -/
theorem overlap_exact {T U : Type} (eqTU : T → U → Bool)
    (a : List T) (b : List U) (i : Nat) (ha : i < a.length) (hb : i < b.length) :
    (diffs eqTU a b)[i]? =
      some (match eqTU a[i] b[i] with
        | true => Diff.Keep
        | false => Diff.Change b[i]) := by
  induction a generalizing b i with
  | nil => simp at ha
  | cons lv ls ih =>
    cases b with
    | nil => simp at hb
    | cons rv rs =>
      cases i with
      | zero => cases hq : eqTU lv rv <;> simp [diffs, hq]
      | succ j =>
        have ha' : j < ls.length := by simpa using ha
        have hb' : j < rs.length := by simpa using hb
        cases hq : eqTU lv rv <;>
          simp [diffs, hq, ih rs j ha' hb']

/-- Witness for C1 at a concrete input: position 1 of `[7,8]` vs
`[7,9]` differs, so the edit is `Change 9` (the right-hand element). -/
theorem overlap_exact_witness :
    1 < 2 ∧ (diffs beqNat [7, 8] [7, 9])[1]? = some (Diff.Change 9) := by
  refine ⟨by decide, ?_⟩
  have h := overlap_exact beqNat [7, 8] [7, 9] 1 (by decide) (by decide)
  simpa [beqNat] using h

/-- C6: when the inputs have equal length and every left element equals
the corresponding right element under the relation, every produced edit
is `Keep`. -/
theorem identical_all_keep {T U : Type} (eqTU : T → U → Bool)
    (a : List T) (b : List U) (hlen : a.length = b.length)
    (heq : ∀ (i : Nat) (ha : i < a.length) (hb : i < b.length), eqTU a[i] b[i] = true) :
    ∀ d ∈ diffs eqTU a b, d = Diff.Keep := by
  induction a generalizing b with
  | nil =>
    cases b with
    | nil => simp [diffs]
    | cons rv rs => simp at hlen
  | cons lv ls ih =>
    cases b with
    | nil => simp at hlen
    | cons rv rs =>
      have h0 : eqTU lv rv = true := by
        have := heq 0 (by simp) (by simp)
        simpa using this
      intro d hd
      simp only [diffs, h0] at hd
      rcases List.mem_cons.mp hd with hd | hd
      · exact hd
      · exact ih rs (by simpa using hlen)
          (fun i hi hi' => by
            have := heq (i + 1) (by simpa using hi) (by simpa using hi')
            simpa using this) d hd

/-- Witness for C6 at a concrete input: under the relation that deems
everything equal, the (nonempty) run on `[1]` vs `[2]` yields `Keep`. -/
theorem identical_all_keep_witness :
    ([1] : List Nat).length = ([2] : List Nat).length ∧
      (Diff.Keep : Diff Nat) = Diff.Keep :=
  ⟨rfl, identical_all_keep (fun _ _ => true) [1] [2] rfl (fun _ _ _ => rfl)
      Diff.Keep (by simp [diffs])⟩

/-- Positions at or past the right input's length (left longer) yield
`Remove`. -/
theorem diffs_past_right {T U : Type} (eqTU : T → U → Bool) :
    ∀ (a : List T) (b : List U) (i : Nat), b.length ≤ i → i < a.length →
      (diffs eqTU a b)[i]? = some Diff.Remove := by
  intro a
  induction a with
  | nil => intro b i _ hi; simp at hi
  | cons lv ls ih =>
    intro b i hb hi
    cases b with
    | nil =>
      cases i with
      | zero => simp [diffs]
      | succ j =>
        have hj : j < ls.length := by simpa using hi
        simpa [diffs] using ih [] j (Nat.zero_le j) hj
    | cons rv rs =>
      cases i with
      | zero => simp at hb
      | succ j =>
        have hb' : rs.length ≤ j := by simpa using hb
        have hj : j < ls.length := by simpa using hi
        cases hq : eqTU lv rv <;>
          simpa [diffs, hq] using ih rs j hb' hj

/-- Positions at or past the left input's length (right longer) yield
`Add` of the corresponding right-hand element. -/
theorem diffs_past_left {T U : Type} (eqTU : T → U → Bool) :
    ∀ (a : List T) (b : List U) (i : Nat) (h1 : a.length ≤ i) (h2 : i < b.length),
      (diffs eqTU a b)[i]? = some (Diff.Add b[i]) := by
  intro a
  induction a with
  | nil =>
    intro b i _ h2
    simp [diffs_nil_left, h2]
  | cons lv ls ih =>
    intro b i h1 h2
    cases b with
    | nil => simp at h2
    | cons rv rs =>
      cases i with
      | zero => simp at h1
      | succ j =>
        have h1' : ls.length ≤ j := by simpa using h1
        have h2' : j < rs.length := by simpa using h2
        cases hq : eqTU lv rv <;>
          simpa [diffs, hq] using ih rs j h1' h2'

/-- C3: past the shorter input's length the edits are pure `Remove`
when the left input is longer and pure `Add` of the corresponding
right-hand element when the right input is longer; in particular an
empty left input maps the right input to `Add` edits in order, and an
empty right input gives `len(a)` `Remove` edits. -/
theorem trailing_edits {T U : Type} (eqTU : T → U → Bool)
    (a : List T) (b : List U) :
    (∀ i : Nat, b.length ≤ i → i < a.length →
      (diffs eqTU a b)[i]? = some Diff.Remove) ∧
    (∀ (i : Nat) (h1 : a.length ≤ i) (h2 : i < b.length),
      (diffs eqTU a b)[i]? = some (Diff.Add b[i])) ∧
    diffs eqTU ([] : List T) b = b.map Diff.Add ∧
    diffs eqTU a ([] : List U) = List.replicate a.length Diff.Remove :=
  ⟨fun i hb hi => diffs_past_right eqTU a b i hb hi,
   fun i h1 h2 => diffs_past_left eqTU a b i h1 h2,
   diffs_nil_left eqTU b,
   diffs_nil_right eqTU a⟩

/-- Witness for C3 at concrete inputs: position 2 of `[0,1,2]` vs `[5]`
is `Remove`; position 2 of `[5]` vs `[0,1,2]` is `Add 2`. -/
theorem trailing_edits_witness :
    (diffs beqNat [0, 1, 2] [5])[2]? = some Diff.Remove ∧
    (diffs beqNat [5] [0, 1, 2])[2]? = some (Diff.Add 2) :=
  ⟨(trailing_edits beqNat [0, 1, 2] [5]).1 2 (by decide) (by decide),
   (trailing_edits beqNat [5] [0, 1, 2]).2.1 2 (by decide) (by decide)⟩

/-- A `Remove` edit can only appear when the left input outlives the
right one. -/
theorem remove_mem_length {T U : Type} (eqTU : T → U → Bool) :
    ∀ (a : List T) (b : List U), Diff.Remove ∈ diffs eqTU a b → b.length < a.length := by
  intro a
  induction a with
  | nil =>
    intro b h
    rw [diffs_nil_left] at h
    simp [List.mem_map] at h
  | cons lv ls ih =>
    intro b h
    cases b with
    | nil => simp
    | cons rv rs =>
      have htail : Diff.Remove ∈ diffs eqTU ls rs := by
        cases hq : eqTU lv rv <;> simp [diffs, hq] at h <;> exact h
      have := ih rs htail
      simp
      omega

/-- An `Add` edit can only appear when the right input outlives the
left one. -/
theorem add_mem_length {T U : Type} (eqTU : T → U → Bool) (x : U) :
    ∀ (a : List T) (b : List U), Diff.Add x ∈ diffs eqTU a b → a.length < b.length := by
  intro a
  induction a with
  | nil =>
    intro b h
    cases b with
    | nil => simp [diffs] at h
    | cons rv rs => simp
  | cons lv ls ih =>
    intro b h
    cases b with
    | nil =>
      rw [diffs_nil_right] at h
      simp [List.eq_of_mem_replicate] at h
    | cons rv rs =>
      have htail : Diff.Add x ∈ diffs eqTU ls rs := by
        cases hq : eqTU lv rv <;> simp [diffs, hq] at h <;> exact h
      have := ih rs htail
      simp
      omega

/-- C10: within a single run `Remove` and `Add` edits are mutually
exclusive, since only one side can have trailing excess. -/
theorem remove_add_exclusive {T U : Type} (eqTU : T → U → Bool)
    (a : List T) (b : List U) (h : Diff.Remove ∈ diffs eqTU a b) :
    ∀ x : U, Diff.Add x ∉ diffs eqTU a b := by
  intro x hx
  have h1 := remove_mem_length eqTU a b h
  have h2 := add_mem_length eqTU x a b hx
  omega

/-- Witness for C10 at a concrete input: the run on `[0]` vs `[]`
contains `Remove`, hence no `Add 5`. -/
theorem remove_add_exclusive_witness :
    Diff.Remove ∈ diffs beqNat [0] [] ∧ Diff.Add 5 ∉ diffs beqNat [0] [] := by
  have hm : Diff.Remove ∈ diffs beqNat [0] ([] : List Nat) := by simp [diffs]
  exact ⟨hm, remove_add_exclusive beqNat [0] [] hm 5⟩

/-- One pull signals end-of-sequence exactly when both producers report
exhaustion on that pull. -/
theorem next_none_iff {T U σL σR : Type} (eqTU : T → U → Bool)
    (nextL : σL → Option T × σL) (nextR : σR → Option U × σR)
    (s : DiffIter σL σR) :
    (DiffIter.next eqTU nextL nextR s).1 = none ↔
      (nextL s.lhs).1 = none ∧ (nextR s.rhs).1 = none := by
  unfold DiffIter.next
  cases h1 : (nextL s.lhs).1 <;> cases h2 : (nextR s.rhs).1 <;>
    simp [h1, h2]
  cases eqTU _ _ <;> simp

/-- The post-pull state pairs the two advanced producer states,
whatever the classification was. -/
theorem advance_eq {T U σL σR : Type} (eqTU : T → U → Bool)
    (nextL : σL → Option T × σL) (nextR : σR → Option U × σR)
    (s : DiffIter σL σR) :
    advance eqTU nextL nextR s = ⟨(nextL s.lhs).2, (nextR s.rhs).2⟩ := rfl

/-- C4: once a pull finds both producers exhausted and signals
end-of-sequence, every subsequent pull signals end-of-sequence again,
provided each producer reports exhaustion idempotently once
exhausted. -/
theorem exhaustion_permanent {T U σL σR : Type} (eqTU : T → U → Bool)
    (nextL : σL → Option T × σL) (nextR : σR → Option U × σR)
    (hL : ∀ sl : σL, (nextL sl).1 = none → (nextL (nextL sl).2).1 = none)
    (hR : ∀ sr : σR, (nextR sr).1 = none → (nextR (nextR sr).2).1 = none)
    (s : DiffIter σL σR)
    (h : (DiffIter.next eqTU nextL nextR s).1 = none) :
    ∀ k : Nat,
      (DiffIter.next eqTU nextL nextR ((advance eqTU nextL nextR)^[k] s)).1 = none := by
  have hP := (next_none_iff eqTU nextL nextR s).mp h
  have key : ∀ k : Nat,
      (nextL ((advance eqTU nextL nextR)^[k] s).lhs).1 = none ∧
      (nextR ((advance eqTU nextL nextR)^[k] s).rhs).1 = none := by
    intro k
    induction k with
    | zero => simpa using hP
    | succ j ihj =>
      rw [Function.iterate_succ_apply', advance_eq]
      exact ⟨hL _ ihj.1, hR _ ihj.2⟩
  intro k
  exact (next_none_iff eqTU nextL nextR _).mpr (key k)

/-- Witness for C4 at a concrete input: with list producers (which are
exhaustion-idempotent) the pull after three further advances from the
doubly-empty state still signals end-of-sequence. -/
theorem exhaustion_permanent_witness :
    (DiffIter.next beqNat listNext listNext
      ((advance beqNat listNext listNext)^[3]
        (⟨[], []⟩ : DiffIter (List Nat) (List Nat)))).1 = none :=
  exhaustion_permanent beqNat listNext listNext
    (fun sl => by cases sl <;> simp [listNext])
    (fun sr => by cases sr <;> simp [listNext])
    ⟨[], []⟩ rfl 3

/-- C5: every pull advances each producer exactly once via its own step
function, unconditionally; after `n` pulls each producer has been
stepped exactly `n` times and the state holds nothing else. -/
theorem step_pulls_each_once {T U σL σR : Type} (eqTU : T → U → Bool)
    (nextL : σL → Option T × σL) (nextR : σR → Option U × σR)
    (s : DiffIter σL σR) :
    (DiffIter.next eqTU nextL nextR s).2 =
        ⟨(nextL s.lhs).2, (nextR s.rhs).2⟩ ∧
    ∀ n : Nat, (advance eqTU nextL nextR)^[n] s =
        ⟨(fun sl => (nextL sl).2)^[n] s.lhs, (fun sr => (nextR sr).2)^[n] s.rhs⟩ := by
  refine ⟨rfl, ?_⟩
  intro n
  induction n with
  | zero => rfl
  | succ j ihj =>
    rw [Function.iterate_succ_apply', Function.iterate_succ_apply',
      Function.iterate_succ_apply', ihj, advance_eq]

/-- C7: two independently constructed fresh engines driven on the same
two inputs (even for different numbers of pulls past exhaustion)
produce identical edit sequences — the output is a function of the
inputs alone. -/
theorem fresh_runs_identical {T U : Type} (eqTU : T → U → Bool)
    (a : List T) (b : List U) (fuel1 fuel2 : Nat)
    (h1 : max a.length b.length < fuel1) (h2 : max a.length b.length < fuel2) :
    collectN eqTU listNext listNext fuel1 (iter_diff id id a b) =
      collectN eqTU listNext listNext fuel2 (iter_diff id id a b) := by
  rw [collectN_eq_diffs eqTU fuel1 a b h1, collectN_eq_diffs eqTU fuel2 a b h2]

/-- Witness for C7 at a concrete input: two fresh runs on `[0,1]` vs
`[0]` with different fuel agree. -/
theorem fresh_runs_identical_witness :
    collectN beqNat listNext listNext 5 (iter_diff id id [0, 1] [0]) =
      collectN beqNat listNext listNext 9 (iter_diff id id [0, 1] [0]) :=
  fresh_runs_identical beqNat [0, 1] [0] 5 9 (by decide) (by decide)

/-- C8: the step function is total over all producer states — every
pull either yields an edit or signals clean exhaustion — and the result
type carries only the four edit variants, no error variant. -/
theorem pull_total_no_error {T U σL σR : Type} (eqTU : T → U → Bool)
    (nextL : σL → Option T × σL) (nextR : σR → Option U × σR)
    (s : DiffIter σL σR) :
    ((∃ d, (DiffIter.next eqTU nextL nextR s).1 = some d) ∨
        (DiffIter.next eqTU nextL nextR s).1 = none) ∧
    ∀ d : Diff U,
      d = Diff.Keep ∨ d = Diff.Remove ∨ (∃ x, d = Diff.Change x) ∨ ∃ x, d = Diff.Add x := by
  constructor
  · cases h : (DiffIter.next eqTU nextL nextR s).1 with
    | none => exact Or.inr rfl
    | some d => exact Or.inl ⟨d, rfl⟩
  · intro d
    cases d with
    | Keep => exact Or.inl rfl
    | Remove => exact Or.inr (Or.inl rfl)
    | Change x => exact Or.inr (Or.inr (Or.inl ⟨x, rfl⟩))
    | Add x => exact Or.inr (Or.inr (Or.inr ⟨x, rfl⟩))

/-- C9: construction stores the two converted producers untouched — the
constructor never receives a step function, so no element is pulled and
no comparison happens before the first pull of the result. -/
theorem iter_diff_pulls_nothing {CL CR σL σR : Type}
    (intoL : CL → σL) (intoR : CR → σR) (l : CL) (r : CR) :
    (iter_diff intoL intoR l r).lhs = intoL l ∧
    (iter_diff intoL intoR l r).rhs = intoR r :=
  ⟨rfl, rfl⟩

end IterDiff
